import Mathlib

/-
Shallow embedding of the WhatsApp Wrapped server (src/server.py) and proofs
about its parsing and aggregation pipeline.

Modelling conventions:
- Python strings are modelled as Lean `String` / `List Char` (one `Char` per
  Unicode code point, matching Python's code-point strings and `len`).
- Python's regex character class `\d` is modelled as ASCII digits and
  `str.lower` as ASCII lowercasing; all pattern constants in the source are
  ASCII, so this only restricts behaviour on exotic non-ASCII inputs.
- Python exceptions are modelled with `Except String`.
- the `float` percentage `round((night_count / total_user) * 100, 2)` is an
  exact multiple of 0.01 (up to binary float noise, which no claim touches);
  it is modelled exactly as its integer count of hundredths, computed with
  Python's banker's rounding over integers.
-/

-- ### Character helpers (Python `str` methods and regex character classes)

/-- The U+200E LEFT-TO-RIGHT MARK removed by `is_media_message` (server.py:81). -/
def lrmChar : Char := Char.ofNat 0x200E

def newlineChar : Char := '\n'

def apoChar : Char := Char.ofNat 39

/-- Python whitespace (as used by `str.strip` and the regex class `\s`). -/
def isSpacePy (c : Char) : Bool :=
  c == ' ' || c == '\t' || c == '\n' || c == '\r' ||
  c == Char.ofNat 0x0B || c == Char.ofNat 0x0C ||
  (0x1C ≤ c.toNat && c.toNat ≤ 0x1F) || c.toNat == 0x85 || c.toNat == 0xA0 ||
  c.toNat == 0x1680 || (0x2000 ≤ c.toNat && c.toNat ≤ 0x200A) ||
  c.toNat == 0x2028 || c.toNat == 0x2029 || c.toNat == 0x202F ||
  c.toNat == 0x205F || c.toNat == 0x3000

/-- Line terminators recognised by Python `str.splitlines`. -/
def isLineTerm (c : Char) : Bool :=
  c == '\n' || c == '\r' || c == Char.ofNat 0x0B || c == Char.ofNat 0x0C ||
  c == Char.ofNat 0x1C || c == Char.ofNat 0x1D || c == Char.ofNat 0x1E ||
  c == Char.ofNat 0x85 || c == Char.ofNat 0x2028 || c == Char.ofNat 0x2029

/-- Python `str.splitlines` with `\r\n` treated as a single terminator. -/
def splitlinesAux : List Char → List Char → List (List Char)
  | acc, [] => if acc.isEmpty then [] else [acc.reverse]
  | acc, '\r' :: '\n' :: cs => acc.reverse :: splitlinesAux [] cs
  | acc, '\r' :: cs => acc.reverse :: splitlinesAux [] cs
  | acc, c :: cs =>
    if isLineTerm c then acc.reverse :: splitlinesAux [] cs
    else splitlinesAux (c :: acc) cs

def splitlinesPy (s : List Char) : List (List Char) := splitlinesAux [] s

/-- Python `str.strip()` on a character list. -/
def stripChars (l : List Char) : List Char :=
  ((l.dropWhile isSpacePy).reverse.dropWhile isSpacePy).reverse

/-- `raw_line.rstrip("\n")` (server.py:90). -/
def rstripNl (l : List Char) : List Char :=
  (l.reverse.dropWhile (fun c => c == '\n')).reverse

/-- Does `p` start the list `l`? (building block for substring search). -/
def startsWithL : List Char → List Char → Bool
  | [], _ => true
  | _ :: _, [] => false
  | p :: ps, c :: cs => p == c && startsWithL ps cs

/-- Does `p` occur as a contiguous substring of `l`? -/
def subOccurs (p : List Char) : List Char → Bool
  | [] => startsWithL p []
  | c :: t => startsWithL p (c :: t) || subOccurs p t

def lowerList (s : String) : List Char := s.toList.map Char.toLower

-- ### Pattern constants (server.py:24-52)

def createdGroupPat : List Char := "created this group".toList
def addedPat : List Char := "added".toList
def removedPat : List Char := "removed".toList
def changedPat : List Char := "changed".toList
def promotedPat : List Char := "promoted".toList
def omittedPat : List Char := "omitted".toList
def madePat : List Char := "made".toList
def adminPat : List Char := "admin".toList

/-- `.*admin` after a `made`: scan forward over non-newline characters
(the regex `.` does not match a newline) looking for `admin`. -/
def adminAfterMade : List Char → Bool
  | [] => false
  | c :: t => startsWithL adminPat (c :: t) || (!(c == newlineChar) && adminAfterMade t)

/-- Search for the regex branch `made.*admin` anywhere in the text. -/
def madeAdminSearch : List Char → Bool
  | [] => false
  | c :: t =>
    (startsWithL madePat (c :: t) && adminAfterMade (List.drop 4 (c :: t))) ||
    madeAdminSearch t

/-- `ADMIN_ACTION_RE.search(message)` (server.py:24-27): case-insensitive
search for any of the administrative-action alternatives. -/
def isAdminAction (message : String) : Bool :=
  let l := lowerList message
  subOccurs createdGroupPat l || subOccurs addedPat l || subOccurs removedPat l ||
  subOccurs changedPat l || subOccurs promotedPat l || subOccurs omittedPat l ||
  madeAdminSearch l

/-- `MEDIA_PLACEHOLDERS` (server.py:29-35); the second entry carries a
leading U+200E mark exactly as in the source. -/
def MEDIA_PLACEHOLDERS : List String :=
  ["<Media omitted>",
   String.mk (lrmChar :: "<Media omitted>".toList),
   "image omitted",
   "video omitted",
   "sticker omitted"]

/-- `is_media_message` (server.py:80-82): drop every U+200E, strip, then
test membership in the placeholder set. -/
def is_media_message (message : String) : Bool :=
  let cleaned := String.mk (stripChars (message.toList.filter (fun c => !(c == lrmChar))))
  MEDIA_PLACEHOLDERS.contains cleaned

/-- `STOPWORDS` (server.py:37-42). -/
def STOPWORDS : List String :=
  ["the", "a", "an", "and", "or", "but", "to", "of", "in", "on", "for", "with",
   "is", "it", "this", "that", "i", "you", "he", "she", "we", "they", "me",
   "my", "your", "our", "us", "at", "as", "be", "are", "was", "were", "so",
   "not", "do", "does", "did", "from", "by", "if", "then", "im",
   String.mk ['i', apoChar, 'm'], "u", "ur", "lol", "bro", "brev"]

def DOW_NAMES : List String := ["Mon", "Tue", "Wed", "Thu", "Fri", "Sat", "Sun"]

def monthNames : List String :=
  ["January", "February", "March", "April", "May", "June", "July", "August",
   "September", "October", "November", "December"]

/-- `EMOJI_RE` (server.py:48-52): membership in the fixed code point ranges. -/
def isEmojiChar (c : Char) : Bool :=
  (0x1F300 ≤ c.toNat && c.toNat ≤ 0x1F5FF) ||
  (0x1F600 ≤ c.toNat && c.toNat ≤ 0x1F64F) ||
  (0x1F680 ≤ c.toNat && c.toNat ≤ 0x1F6FF) ||
  (0x1F1E0 ≤ c.toNat && c.toNat ≤ 0x1F1FF) ||
  (0x2600 ≤ c.toNat && c.toNat ≤ 0x26FF) ||
  (0x2700 ≤ c.toNat && c.toNat ≤ 0x27BF)

-- ### Tokenizer (server.py:74-77)

/-- The regex class `[a-z0-9']` after lowercasing. -/
def isWordChar (c : Char) : Bool :=
  ('a' ≤ c && c ≤ 'z') || ('0' ≤ c && c ≤ '9') || c == apoChar

/-- `re.findall(r"[a-z0-9']+", text)`: maximal runs of word characters. -/
def runsAux : List Char → List Char → List (List Char)
  | acc, [] => if acc.isEmpty then [] else [acc.reverse]
  | acc, c :: cs =>
    if isWordChar c then runsAux (c :: acc) cs
    else if acc.isEmpty then runsAux [] cs
    else acc.reverse :: runsAux [] cs

/-- The token stream of `tokenize` before stop-word/length filtering. -/
def rawTokens (text : String) : List String :=
  (runsAux [] (text.toList.map Char.toLower)).map String.mk

/-- `tokenize` (server.py:74-77). -/
def tokenize (text : String) : List String :=
  (rawTokens text).filter (fun t => !STOPWORDS.contains t && t.length > 1)

-- ### Timestamps

structure DateTime where
  year : Nat
  month : Nat
  day : Nat
  hour : Nat
  minute : Nat
  second : Nat
deriving DecidableEq, Repr

structure Record where
  timestamp : DateTime
  sender : String
  message : String
deriving DecidableEq, Repr

def isLeap (y : Nat) : Bool := y % 4 == 0 && (y % 100 != 0 || y % 400 == 0)

def daysInMonth (y m : Nat) : Nat :=
  if m == 2 then (if isLeap y then 29 else 28)
  else if m == 4 || m == 6 || m == 9 || m == 11 then 30
  else 31

/-- Days since 1970-01-01 of a proleptic Gregorian date (Hinnant's
`days_from_civil`; all intermediate divisions act on nonnegative values
for the years accepted by `strptime`). -/
def daysFromCivil (y m d : Int) : Int :=
  let y2 : Int := if m ≤ 2 then y - 1 else y
  let era : Int := (if 0 ≤ y2 then y2 else y2 - 399) / 400
  let yoe : Int := y2 - era * 400
  let mp : Int := (m + 9) % 12
  let doy : Int := (153 * mp + 2) / 5 + d - 1
  let doe : Int := yoe * 365 + yoe / 4 - yoe / 100 + doy
  era * 146097 + doe - 719468

/-- `datetime.weekday()`: Monday = 0 .. Sunday = 6 (1970-01-01 was a Thursday). -/
def weekday (dt : DateTime) : Nat :=
  (((daysFromCivil dt.year dt.month dt.day) + 3).emod 7).toNat

def pad2 (n : Nat) : String := if n < 10 then "0" ++ toString n else toString n

def pad4 (n : Nat) : String :=
  if n < 10 then "000" ++ toString n
  else if n < 100 then "00" ++ toString n
  else if n < 1000 then "0" ++ toString n
  else toString n

/-- `datetime.isoformat()` at second precision. -/
def isoFormat (dt : DateTime) : String :=
  pad4 dt.year ++ "-" ++ pad2 dt.month ++ "-" ++ pad2 dt.day ++ "T" ++
  pad2 dt.hour ++ ":" ++ pad2 dt.minute ++ ":" ++ pad2 dt.second

-- ### Header line recognition (HEADER_RE, server.py:20-22)

structure HeaderGroups where
  year : Nat
  month : Nat
  day : Nat
  hour : Nat
  minute : Nat
  second : Nat
  sender : List Char
  msg : List Char
deriving DecidableEq, Repr

def digitVal (c : Char) : Nat := c.toNat - 48

def mk2 (a b : Char) : Nat := digitVal a * 10 + digitVal b

def mk4 (a b c d : Char) : Nat :=
  ((digitVal a * 10 + digitVal b) * 10 + digitVal c) * 10 + digitVal d

/-- Split a list at its first colon: the lazy group `([^:]+?)` followed by
`:` can only ever match up to the first colon. -/
def splitAtColon : List Char → Option (List Char × List Char)
  | [] => none
  | c :: t =>
    if c == ':' then some ([], t)
    else (splitAtColon t).map (fun p => (c :: p.1, p.2))

/-- `HEADER_RE.match(line)` (server.py:20-22): the shape
`[dddd/dd/dd,\s dd:dd:dd]\s SENDER:\s MESSAGE` with a nonempty colon-free
sender, returning the four capture groups (date and time as numbers). -/
def parseHeaderLine (l : List Char) : Option HeaderGroups :=
  match l with
  | a0 :: y1 :: y2 :: y3 :: y4 :: a5 :: m1 :: m2 :: a8 :: d1 :: d2 :: a11 ::
    w1 :: h1 :: h2 :: a15 :: n1 :: n2 :: a18 :: e1 :: e2 :: a21 :: w2 :: rest =>
    if a0 == '[' && y1.isDigit && y2.isDigit && y3.isDigit && y4.isDigit &&
       a5 == '/' && m1.isDigit && m2.isDigit && a8 == '/' && d1.isDigit &&
       d2.isDigit && a11 == ',' && isSpacePy w1 && h1.isDigit && h2.isDigit &&
       a15 == ':' && n1.isDigit && n2.isDigit && a18 == ':' && e1.isDigit &&
       e2.isDigit && a21 == ']' && isSpacePy w2 then
      match splitAtColon rest with
      | some (sender, afterColon) =>
        if sender.isEmpty then none
        else
          match afterColon with
          | w3 :: msg =>
            if isSpacePy w3 then
              some ⟨mk4 y1 y2 y3 y4, mk2 m1 m2, mk2 d1 d2,
                    mk2 h1 h2, mk2 n1 n2, mk2 e1 e2, sender, msg⟩
            else none
          | [] => none
      | none => none
    else none
  | _ => none

/-- `datetime.strptime(f"{date_str} {time_str}", "%Y/%m/%d %H:%M:%S")`
(server.py:98): range validation; out-of-range fields raise `ValueError`. -/
def strptimeDT (g : HeaderGroups) : Option DateTime :=
  if 1 ≤ g.year && 1 ≤ g.month && g.month ≤ 12 && 1 ≤ g.day &&
     g.day ≤ daysInMonth g.year g.month && g.hour ≤ 23 && g.minute ≤ 59 &&
     g.second ≤ 59 then
    some ⟨g.year, g.month, g.day, g.hour, g.minute, g.second⟩
  else none

-- ### Chat parser (parse_chat_text, server.py:85-112)

def errStrptime : String := "ValueError: time data does not match format"

/-- The line loop of `parse_chat_text`: `cur` is the record being
accumulated (`current`), `recs` the finalized records in order. -/
def parseLoop : List (List Char) → Option Record → List Record → Except String (List Record)
  | [], cur, recs =>
    match cur with
    | none => Except.ok recs
    | some c => Except.ok (recs ++ [c])
  | line :: rest, cur, recs =>
    let l := rstripNl line
    match parseHeaderLine l with
    | some g =>
      let recs2 := match cur with | none => recs | some c => recs ++ [c]
      match strptimeDT g with
      | none => Except.error errStrptime
      | some ts =>
        parseLoop rest (some ⟨ts, String.mk (stripChars g.sender),
                              String.mk (stripChars g.msg)⟩) recs2
    | none =>
      if cur ≠ none ∧ stripChars l ≠ [] then
        match cur with
        | some c =>
          parseLoop rest
            (some { c with message := c.message ++ String.mk (newlineChar :: stripChars l) }) recs
        | none => parseLoop rest cur recs
      else parseLoop rest cur recs

def parse_chat_text (content : String) : Except String (List Record) :=
  parseLoop (splitlinesPy content.toList) none []

-- ### Insertion-ordered frequency tables (collections.Counter)

/-- One `Counter` increment: bump the entry for `k`, appending `(k, 1)` at
the end on first encounter (Python dicts preserve insertion order). -/
def bump {K : Type} [DecidableEq K] : List (K × Nat) → K → List (K × Nat)
  | [], k => [(k, 1)]
  | p :: t, k => if p.1 = k then (p.1, p.2 + 1) :: t else p :: bump t k

/-- `Counter(keys)`: the insertion-ordered frequency table of a key stream. -/
def counterOf {K : Type} [DecidableEq K] (keys : List K) : List (K × Nat) :=
  keys.foldl bump []

/-- Stable descending insertion by count: an element moves past entries with
a strictly greater count and lands before the first entry with an equal or
smaller one, exactly the tie behaviour of Python's stable
`sorted(..., key=count, reverse=True)`. -/
def insertDesc {K : Type} (x : K × Nat) : List (K × Nat) → List (K × Nat)
  | [] => [x]
  | y :: ys => if x.2 < y.2 then y :: insertDesc x ys else x :: y :: ys

/-- `Counter.most_common()`: entries sorted by descending count, ties in
insertion order. -/
def sortCountDesc {K : Type} (l : List (K × Nat)) : List (K × Nat) :=
  l.foldr insertDesc []

/-- Python's `min`/`max` over an iterable with a key function: fold that
replaces the current best only on a strict improvement, hence returns the
first-encountered optimum. -/
def pyBest {α : Type} (better : α → α → Bool) (x : α) (xs : List α) : α :=
  xs.foldl (fun a b => if better b a then b else a) x

/-- `min(counter.items(), key=lambda kv: kv[1])` (server.py:153);
`none` when the table is empty (Python would raise `ValueError`). -/
def pyMinPair {K : Type} (l : List (K × Nat)) : Option (K × Nat) :=
  match l with
  | [] => none
  | x :: xs => some (pyBest (fun b a => b.2 < a.2) x xs)

-- ### Result model (WrappedResponse, server.py:55-71)

structure TalkerEntry where
  sender : String
  count : Nat
deriving DecidableEq, Repr

structure HourStat where
  hour : Option Nat
  count : Nat
deriving DecidableEq, Repr

structure DayStat where
  day : Option String
  count : Nat
deriving DecidableEq, Repr

structure MonthStat where
  year : Option Nat
  month : Option Nat
  label : Option String
  count : Nat
deriving DecidableEq, Repr

structure NightOwl where
  count : Nat
  percent_x100 : Nat
deriving DecidableEq, Repr

structure LongestMessage where
  sender : String
  timestamp : String
  length_chars : Nat
  preview : String
deriving DecidableEq, Repr

structure WordStat where
  word : String
  count : Nat
deriving DecidableEq, Repr

structure EmojiStat where
  emoji : String
  count : Nat
deriving DecidableEq, Repr

structure WrappedResponse where
  total_records : Nat
  total_user_messages : Nat
  total_system_events : Nat
  top_talkers : List TalkerEntry
  quietest_sender : Option TalkerEntry
  busiest_hour : HourStat
  busiest_day_of_week : DayStat
  peak_month : MonthStat
  night_owl : NightOwl
  longest_message : Option LongestMessage
  most_used_word : Option WordStat
  most_used_emoji : Option EmojiStat
deriving DecidableEq, Repr

/-- Banker's rounding of the fraction `num / den` to the nearest integer
(Python's `round`): used to model `round(x, 2)` on `x = num / (100 * den)`. -/
def bankersDiv (num den : Nat) : Nat :=
  let q := num / den
  let r := num % den
  if 2 * r < den then q
  else if den < 2 * r then q + 1
  else if q % 2 = 0 then q else q + 1

-- ### Record filtering and aggregation (compute_stats, server.py:115-219)

/-- Year filter (server.py:116): the fixed target year is 2025. -/
def yearFilter (records : List Record) : List Record :=
  records.filter (fun r => r.timestamp.year == 2025)

/-- The system-event side of the classification loop (server.py:121-125). -/
def systemEventsOf (records : List Record) : List Record :=
  (yearFilter records).filter (fun r => isAdminAction r.message)

/-- The user-message side of the classification loop (server.py:121-125). -/
def userMessagesOf (records : List Record) : List Record :=
  (yearFilter records).filter (fun r => !isAdminAction r.message)

def sendersOf (records : List Record) : List String :=
  (userMessagesOf records).map (fun r => r.sender)

def hoursOf (records : List Record) : List Nat :=
  (userMessagesOf records).map (fun r => r.timestamp.hour)

def dowsOf (records : List Record) : List Nat :=
  (userMessagesOf records).map (fun r => weekday r.timestamp)

def monthsOf (records : List Record) : List (Nat × Nat) :=
  (userMessagesOf records).map (fun r => (r.timestamp.year, r.timestamp.month))

/-- `is_night` (server.py:165-166): hour ≥ 22 or hour ≤ 4. -/
def isNightHour (h : Nat) : Bool := 22 ≤ h || h ≤ 4

def nightCountOf (records : List Record) : Nat :=
  (userMessagesOf records).countP (fun r => isNightHour r.timestamp.hour)

/-- `user_non_media` (server.py:171). -/
def userNonMediaOf (records : List Record) : List Record :=
  (userMessagesOf records).filter (fun r => !is_media_message r.message)

/-- The token stream accumulated into `word_counter` (server.py:182-184). -/
def wordScan (records : List Record) : List String :=
  (userNonMediaOf records).foldl (fun acc r => acc ++ tokenize r.message) []

/-- The emoji stream accumulated into `emoji_counter` (server.py:191-195). -/
def emojiScan (records : List Record) : List Char :=
  (userNonMediaOf records).foldl
    (fun acc r => acc ++ r.message.toList.filter isEmojiChar) []

/-- The single-line preview (server.py:179): newlines to spaces, first 200
code points. -/
def previewOf (m : String) : String :=
  String.mk (((m.toList).map (fun c => if c = newlineChar then ' ' else c)).take 200)

def mkLongestEntry (r : Record) : LongestMessage :=
  ⟨r.sender, isoFormat r.timestamp, r.message.length, previewOf r.message⟩

/-- `longest` (server.py:172-180): `max` by body length over the non-media
user messages, `None` when that list is empty. -/
def longestOf (records : List Record) : Option LongestMessage :=
  match userNonMediaOf records with
  | [] => none
  | x :: xs =>
    some (mkLongestEntry (pyBest (fun b a => a.message.length < b.message.length) x xs))

def monthLabelStr (y m : Nat) : String := monthNames.getD (m - 1) "" ++ " " ++ toString y

/-- pydantic v2 raises on the empty-subset branch (server.py:131-144):
the constructor call omits the required field `most_used_emoji`. -/
def errValidation : String :=
  "ValidationError: Field required, most_used_emoji"

def errIndex : String := "IndexError: list index out of range"

def errValue : String := "ValueError: month must be in 1..12"

/-- `compute_stats` (server.py:115-219). -/
def compute_stats (records : List Record) : Except String WrappedResponse :=
  if (userMessagesOf records).length == 0 then Except.error errValidation
  else
    match pyMinPair (counterOf (sendersOf records)),
          (sortCountDesc (counterOf (hoursOf records))).head?,
          (sortCountDesc (counterOf (dowsOf records))).head?,
          (sortCountDesc (counterOf (monthsOf records))).head? with
    | some q, some bh, some bd, some bm =>
      if 1 ≤ bm.1.2 && bm.1.2 ≤ 12 && 1 ≤ bm.1.1 && bm.1.1 ≤ 9999 then
        Except.ok
          { total_records := (yearFilter records).length
            total_user_messages := (userMessagesOf records).length
            total_system_events := (systemEventsOf records).length
            top_talkers :=
              ((sortCountDesc (counterOf (sendersOf records))).take 10).map
                (fun p => ⟨p.1, p.2⟩)
            quietest_sender := some ⟨q.1, q.2⟩
            busiest_hour := ⟨some bh.1, bh.2⟩
            busiest_day_of_week := ⟨some (DOW_NAMES.getD bd.1 ""), bd.2⟩
            peak_month := ⟨some bm.1.1, some bm.1.2,
                           some (monthLabelStr bm.1.1 bm.1.2), bm.2⟩
            night_owl := ⟨nightCountOf records,
              bankersDiv (nightCountOf records * 10000)
                (userMessagesOf records).length⟩
            longest_message := longestOf records
            most_used_word :=
              (sortCountDesc (counterOf (wordScan records))).head?.map
                (fun p => ⟨p.1, p.2⟩)
            most_used_emoji :=
              (sortCountDesc (counterOf (emojiScan records))).head?.map
                (fun p => ⟨String.mk [p.1], p.2⟩) }
      else Except.error errValue
    | _, _, _, _ => Except.error errIndex

def errNoMessages : String :=
  "No WhatsApp messages detected. Make sure this is the raw exported chat .txt."

/-- The `/wrapped` handler after decoding (server.py:240-248): empty record
list is surfaced as the unrecognized-format error. -/
def wrappedCore (text : String) : Except String WrappedResponse :=
  match parse_chat_text text with
  | Except.error e => Except.error e
  | Except.ok records =>
    if records.isEmpty then Except.error errNoMessages
    else compute_stats records

deriving instance DecidableEq for Except

-- ### Shared concrete inputs and computed outputs

/-- A record whose message is the literal `<Media omitted>` placeholder. -/
def mediaRec : Record := ⟨⟨2025, 1, 5, 22, 16, 0⟩, "Bob", "<Media omitted>"⟩

def aliceRec : Record := ⟨⟨2025, 1, 5, 22, 15, 3⟩, "Alice", "hello world"⟩

/-- The two-line example input of the spec (section 8). -/
def chatC3 : String :=
  "[2025/01/05, 22:15:03] Alice: hello world\n[2025/01/05, 22:16:00] Bob: <Media omitted>"

/-- The response the pipeline actually produces on `chatC3`. -/
def respC3 : WrappedResponse :=
  { total_records := 2
    total_user_messages := 1
    total_system_events := 1
    top_talkers := [⟨"Alice", 1⟩]
    quietest_sender := some ⟨"Alice", 1⟩
    busiest_hour := ⟨some 22, 1⟩
    busiest_day_of_week := ⟨some "Sun", 1⟩
    peak_month := ⟨some 2025, some 1, some "January 2025", 1⟩
    night_owl := ⟨1, 10000⟩
    longest_message := some ⟨"Alice", "2025-01-05T22:15:03", 11, "hello world"⟩
    most_used_word := some ⟨"hello", 1⟩
    most_used_emoji := none }

/-- The response produced on the single user message `aliceRec`. -/
def respAlice : WrappedResponse :=
  { total_records := 1
    total_user_messages := 1
    total_system_events := 0
    top_talkers := [⟨"Alice", 1⟩]
    quietest_sender := some ⟨"Alice", 1⟩
    busiest_hour := ⟨some 22, 1⟩
    busiest_day_of_week := ⟨some "Sun", 1⟩
    peak_month := ⟨some 2025, some 1, some "January 2025", 1⟩
    night_owl := ⟨1, 10000⟩
    longest_message := some ⟨"Alice", "2025-01-05T22:15:03", 11, "hello world"⟩
    most_used_word := some ⟨"hello", 1⟩
    most_used_emoji := none }

-- ### Shared helper lemmas

lemma mem_yearFilter {r : Record} {records : List Record} :
    r ∈ yearFilter records ↔ r ∈ records ∧ r.timestamp.year = 2025 := by
  simp [yearFilter, List.mem_filter]

lemma mem_userMessagesOf {r : Record} {records : List Record} :
    r ∈ userMessagesOf records ↔
      r ∈ yearFilter records ∧ isAdminAction r.message = false := by
  simp [userMessagesOf, List.mem_filter]

lemma mem_systemEventsOf {r : Record} {records : List Record} :
    r ∈ systemEventsOf records ↔
      r ∈ yearFilter records ∧ isAdminAction r.message = true := by
  simp [systemEventsOf, List.mem_filter]

/-- Every media-placeholder string matches the administrative-action
pattern (all five contain "omitted"). -/
lemma admin_of_placeholder : ∀ p ∈ MEDIA_PLACEHOLDERS, isAdminAction p = true := by
  decide

-- ### Claim C1 (corrected)

/-- Claim C1, counterexample: the record whose message is the media
placeholder `<Media omitted>` is NOT classified as a user message — it
matches the administrative-action pattern (substring "omitted") and lands
among the system events, so it contributes to none of the sender, hour,
day-of-week, month, or night-owl statistics. -/
theorem c1_media_counted_as_user_counterexample :
    is_media_message mediaRec.message = true ∧
    mediaRec ∈ yearFilter [mediaRec] ∧
    userMessagesOf [mediaRec] = [] ∧
    systemEventsOf [mediaRec] = [mediaRec] := by
  decide

/-- Claim C1 as amended: a year-filtered record whose message is one of the
media-placeholder strings is classified as a system event (every
placeholder contains "omitted", which the administrative-action pattern
matches), and is therefore excluded from the user-message subset — hence
from the sender, hour, day-of-week, month and night-owl statistics as
well, not only from the longest-message, word and emoji computations. -/
theorem c1_media_is_system_event (records : List Record) (r : Record)
    (hy : r ∈ yearFilter records) (hm : r.message ∈ MEDIA_PLACEHOLDERS) :
    r ∈ systemEventsOf records ∧ r ∉ userMessagesOf records := by
  have hadmin : isAdminAction r.message = true := admin_of_placeholder _ hm
  refine ⟨mem_systemEventsOf.mpr ⟨hy, hadmin⟩, ?_⟩
  intro hu
  have := (mem_userMessagesOf.mp hu).2
  rw [hadmin] at this
  cases this

theorem c1_media_is_system_event_witness :
    mediaRec ∈ systemEventsOf [mediaRec] ∧ mediaRec ∉ userMessagesOf [mediaRec] :=
  c1_media_is_system_event [mediaRec] mediaRec (by decide) (by decide)

-- ### Claim C2 (code bug)

/-- Claim C2: on an input whose year-filtered user-message subset is empty,
`compute_stats` does NOT return the sentinel response: the empty-subset
branch (server.py:131-144) builds the `WrappedResponse` without the
required field `most_used_emoji`, so the pydantic model constructor raises
a validation error instead. Shown at the empty record list and at a
single system-event record. -/
theorem c2_empty_subset_raises :
    compute_stats [] = Except.error errValidation ∧
    compute_stats [mediaRec] = Except.error errValidation := by
  exact ⟨rfl, rfl⟩

-- ### Claim C3 (corrected)

/-- Claim C3, counterexample: on the spec's two-line example the pipeline
returns `total_user_messages = 1` and `night_owl.count = 1`, not 2 — Bob's
`<Media omitted>` line matches the administrative-action pattern and is
counted as a system event. -/
theorem c3_example_counterexample :
    wrappedCore chatC3 = Except.ok respC3 ∧
    respC3.total_user_messages = 1 ∧
    respC3.night_owl.count = 1 ∧
    ¬(respC3.total_user_messages = 2 ∧ respC3.night_owl.count = 2) := by
  refine ⟨by decide, rfl, rfl, by decide⟩

/-- Claim C3 as amended: the example input yields `total_records = 2`,
`total_user_messages = 1`, `total_system_events = 1` (Bob's media
placeholder is classified as a system event), `night_owl.count = 1`,
`longest_message.sender = "Alice"`, and
`most_used_word = {word := "hello", count := 1}`. -/
theorem c3_example_amended :
    wrappedCore chatC3 = Except.ok respC3 ∧
    respC3.total_records = 2 ∧
    respC3.total_user_messages = 1 ∧
    respC3.total_system_events = 1 ∧
    respC3.night_owl.count = 1 ∧
    respC3.longest_message.map (fun l => l.sender) = some "Alice" ∧
    respC3.most_used_word = some ⟨"hello", 1⟩ := by
  exact ⟨by decide, rfl, rfl, rfl, rfl, rfl, rfl⟩

-- ### Claim C10 (confirmed)

/-- Claim C10: every media-placeholder string contains "omitted" (matched
case-insensitively by the administrative-action pattern), so a record whose
message literally equals a placeholder is never in the user-message subset,
and inside the year filter it is classified as a system event. -/
theorem c10_placeholders_are_system_events :
    (∀ p ∈ MEDIA_PLACEHOLDERS,
      subOccurs omittedPat (lowerList p) = true ∧ isAdminAction p = true) ∧
    (∀ (records : List Record) (r : Record), r.message ∈ MEDIA_PLACEHOLDERS →
      r ∉ userMessagesOf records ∧ (r ∈ yearFilter records → r ∈ systemEventsOf records)) := by
  constructor
  · decide
  · intro records r hm
    have hadmin : isAdminAction r.message = true := admin_of_placeholder _ hm
    constructor
    · intro hu
      have := (mem_userMessagesOf.mp hu).2
      rw [hadmin] at this
      cases this
    · intro hy
      exact mem_systemEventsOf.mpr ⟨hy, hadmin⟩

theorem c10_witness :
    subOccurs omittedPat (lowerList mediaRec.message) = true ∧
    mediaRec ∉ userMessagesOf [mediaRec] ∧
    mediaRec ∈ systemEventsOf [mediaRec] := by
  refine ⟨(c10_placeholders_are_system_events.1 mediaRec.message (by decide)).1, ?_, ?_⟩
  · exact (c10_placeholders_are_system_events.2 [mediaRec] mediaRec (by decide)).1
  · exact (c10_placeholders_are_system_events.2 [mediaRec] mediaRec (by decide)).2 (by decide)

-- ### Field extraction from a successful compute_stats run

lemma length_filter_partition {α : Type} (p : α → Bool) (l : List α) :
    (l.filter (fun a => !p a)).length + (l.filter p).length = l.length := by
  induction l with
  | nil => rfl
  | cons x t ih =>
    by_cases h : p x <;> simp [List.filter, h, ← ih] <;> omega

/-- Unpacking the successful branch of `compute_stats`: each response field
equals the corresponding aggregation over the input records. -/
lemma compute_stats_ok_fields (records : List Record) (resp : WrappedResponse)
    (h : compute_stats records = Except.ok resp) :
    userMessagesOf records ≠ [] ∧
    resp.total_records = (yearFilter records).length ∧
    resp.total_user_messages = (userMessagesOf records).length ∧
    resp.total_system_events = (systemEventsOf records).length ∧
    resp.top_talkers =
      ((sortCountDesc (counterOf (sendersOf records))).take 10).map
        (fun p => ⟨p.1, p.2⟩) ∧
    (∃ q, pyMinPair (counterOf (sendersOf records)) = some q ∧
      resp.quietest_sender = some ⟨q.1, q.2⟩) ∧
    (∃ p, (sortCountDesc (counterOf (hoursOf records))).head? = some p ∧
      resp.busiest_hour = ⟨some p.1, p.2⟩) ∧
    (∃ p, (sortCountDesc (counterOf (dowsOf records))).head? = some p ∧
      resp.busiest_day_of_week = ⟨some (DOW_NAMES.getD p.1 ""), p.2⟩) ∧
    (∃ p, (sortCountDesc (counterOf (monthsOf records))).head? = some p ∧
      resp.peak_month = ⟨some p.1.1, some p.1.2,
        some (monthLabelStr p.1.1 p.1.2), p.2⟩) ∧
    resp.night_owl = ⟨nightCountOf records,
      bankersDiv (nightCountOf records * 10000) (userMessagesOf records).length⟩ ∧
    resp.longest_message = longestOf records ∧
    resp.most_used_word =
      (sortCountDesc (counterOf (wordScan records))).head?.map (fun p => ⟨p.1, p.2⟩) ∧
    resp.most_used_emoji =
      (sortCountDesc (counterOf (emojiScan records))).head?.map
        (fun p => ⟨String.mk [p.1], p.2⟩) := by
  unfold compute_stats at h
  split at h
  · cases h
  · rename_i hlen
    split at h
    · rename_i q bh bd bm hq hbh hbd hbm
      split at h
      · injection h with h2
        subst h2
        refine ⟨?_, rfl, rfl, rfl, rfl, ⟨q, hq, rfl⟩, ⟨bh, hbh, rfl⟩,
          ⟨bd, hbd, rfl⟩, ⟨bm, hbm, rfl⟩, rfl, rfl, rfl, rfl⟩
        intro hnil
        rw [hnil] at hlen
        simp at hlen
      · cases h
    · cases h

-- ### Claim C4 (confirmed)

/-- Claim C4: after year-filtering, every record is counted in exactly one
of the two classes (user message or system event), the class sizes sum to
the year-filtered total, and a produced response reports
`total_records = total_user_messages + total_system_events`. -/
theorem c4_totals_partition (records : List Record) (resp : WrappedResponse)
    (h : compute_stats records = Except.ok resp) :
    resp.total_records = resp.total_user_messages + resp.total_system_events ∧
    (yearFilter records).length =
      (userMessagesOf records).length + (systemEventsOf records).length ∧
    ∀ r ∈ yearFilter records,
      (r ∈ userMessagesOf records ∧ r ∉ systemEventsOf records) ∨
      (r ∈ systemEventsOf records ∧ r ∉ userMessagesOf records) := by
  obtain ⟨-, htot, huser, hsys, -⟩ := compute_stats_ok_fields records resp h
  have hpart : (userMessagesOf records).length + (systemEventsOf records).length =
      (yearFilter records).length := by
    simpa [userMessagesOf, systemEventsOf] using
      length_filter_partition (fun r => isAdminAction r.message) (yearFilter records)
  refine ⟨by rw [htot, huser, hsys, hpart], hpart.symm, ?_⟩
  intro r hr
  by_cases ha : isAdminAction r.message
  · right
    refine ⟨mem_systemEventsOf.mpr ⟨hr, ha⟩, ?_⟩
    intro hu
    have := (mem_userMessagesOf.mp hu).2
    rw [ha] at this
    cases this
  · left
    refine ⟨mem_userMessagesOf.mpr ⟨hr, by simpa using ha⟩, ?_⟩
    intro hs
    exact ha (mem_systemEventsOf.mp hs).2

theorem c4_totals_partition_witness :
    respAlice.total_records = respAlice.total_user_messages + respAlice.total_system_events ∧
    (yearFilter [aliceRec]).length =
      (userMessagesOf [aliceRec]).length + (systemEventsOf [aliceRec]).length ∧
    (aliceRec ∈ userMessagesOf [aliceRec] ∧ aliceRec ∉ systemEventsOf [aliceRec]) := by
  have h := c4_totals_partition [aliceRec] respAlice (by decide)
  refine ⟨h.1, h.2.1, ?_⟩
  rcases h.2.2 aliceRec (by decide) with h3 | h3
  · exact h3
  · exact absurd h3.1 (by decide)

-- ### Claim C5 (confirmed)

lemma parseLoop_no_header (lines : List (List Char)) (recs : List Record)
    (h : ∀ l ∈ lines, parseHeaderLine (rstripNl l) = none) :
    parseLoop lines none recs = Except.ok recs := by
  induction lines with
  | nil => rfl
  | cons l t ih =>
    have hl := h l (by simp)
    simp only [parseLoop, hl]
    simpa using ih (fun x hx => h x (by simp [hx]))

/-- Claim C5: when no line of the input matches the header shape (the empty
string included), the parser returns the empty record sequence without
raising, and the caller turns that into the unrecognized-format error
rather than a valid empty result. -/
theorem c5_no_header_empty_and_rejected (content : String)
    (h : ∀ l ∈ splitlinesPy content.toList, parseHeaderLine (rstripNl l) = none) :
    parse_chat_text content = Except.ok [] ∧
    wrappedCore content = Except.error errNoMessages := by
  have hp : parse_chat_text content = Except.ok [] :=
    parseLoop_no_header _ _ h
  refine ⟨hp, ?_⟩
  unfold wrappedCore
  rw [hp]
  rfl

def emptyText : String := ""

def headerlessText : String := "just some text\nno [2025] headers here"

theorem c5_witness :
    (parse_chat_text emptyText = Except.ok [] ∧
     wrappedCore emptyText = Except.error errNoMessages) ∧
    (parse_chat_text headerlessText = Except.ok [] ∧
     wrappedCore headerlessText = Except.error errNoMessages) :=
  ⟨c5_no_header_empty_and_rejected emptyText (by decide),
   c5_no_header_empty_and_rejected headerlessText (by decide)⟩

-- ### Claim C6 (confirmed)

lemma runsAux_wordChars :
    ∀ (cs acc : List Char), (∀ c ∈ acc, isWordChar c = true) →
      ∀ t ∈ runsAux acc cs, t ≠ [] ∧ ∀ c ∈ t, isWordChar c = true := by
  intro cs
  induction cs with
  | nil =>
    intro acc hacc t ht
    unfold runsAux at ht
    split at ht
    · cases ht
    · rename_i hne
      simp only [List.mem_singleton] at ht
      subst ht
      refine ⟨?_, ?_⟩
      · simp only [ne_eq, List.reverse_eq_nil_iff]
        simpa [List.isEmpty_iff] using hne
      · intro c hc
        exact hacc c (List.mem_reverse.mp hc)
  | cons c cs ih =>
    intro acc hacc t ht
    unfold runsAux at ht
    split at ht
    · rename_i hw
      refine ih (c :: acc) ?_ t ht
      intro x hx
      rcases List.mem_cons.mp hx with hx | hx
      · rw [hx]; exact hw
      · exact hacc x hx
    · split at ht
      · exact ih [] (by simp) t ht
      · rename_i hw hne
        rcases List.mem_cons.mp ht with ht | ht
        · subst ht
          refine ⟨?_, ?_⟩
          · simp only [ne_eq, List.reverse_eq_nil_iff]
            simpa [List.isEmpty_iff] using hne
          · intro x hx
            exact hacc x (List.mem_reverse.mp hx)
        · exact ih [] (by simp) t ht

/-- Maximality of the extracted runs: no word character of the input is
lost — the run lengths sum to the number of word characters. -/
lemma runsAux_sum_lengths :
    ∀ (cs acc : List Char),
      ((runsAux acc cs).map List.length).sum = acc.length + cs.countP isWordChar := by
  intro cs
  induction cs with
  | nil =>
    intro acc
    unfold runsAux
    split
    · rename_i he
      simp [List.isEmpty_iff.mp he]
    · simp
  | cons c cs ih =>
    intro acc
    unfold runsAux
    split
    · rename_i hw
      rw [ih (c :: acc)]
      simp [List.countP_cons, hw]
      omega
    · rename_i hw
      have hcnt : (c :: cs).countP isWordChar = cs.countP isWordChar := by
        simp [List.countP_cons, hw]
      split
      · rename_i he
        rw [ih []]
        simp [List.isEmpty_iff.mp he, hcnt]
      · rw [List.map_cons, List.sum_cons, ih []]
        simp [hcnt]

/-- Claim C6: every token returned by `tokenize` has length at least 2, is
not a stop word, and consists purely of lowercase-run characters
(`[a-z0-9']`); the returned sequence is a subsequence (order preserved,
duplicates kept) of the raw maximal-run token stream, and the raw runs
cover every word character of the lowercased text. -/
theorem c6_tokenize_contract (text : String) (t : String) (h : t ∈ tokenize text) :
    2 ≤ t.length ∧
    t ∉ STOPWORDS ∧
    (∀ c ∈ t.toList, isWordChar c = true) ∧
    List.Sublist (tokenize text) (rawTokens text) ∧
    ((rawTokens text).map String.length).sum =
      (text.toList.map Char.toLower).countP isWordChar := by
  have hsub : List.Sublist (tokenize text) (rawTokens text) := by
    unfold tokenize
    exact List.filter_sublist _
  have hsum : ((rawTokens text).map String.length).sum =
      (text.toList.map Char.toLower).countP isWordChar := by
    unfold rawTokens
    rw [List.map_map]
    have : String.length ∘ String.mk = List.length := by
      funext l
      rfl
    rw [this]
    simpa using runsAux_sum_lengths (text.toList.map Char.toLower) []
  unfold tokenize at h
  rw [List.mem_filter] at h
  obtain ⟨hmem, hcond⟩ := h
  rw [Bool.and_eq_true] at hcond
  obtain ⟨hstop, hlen⟩ := hcond
  refine ⟨?_, ?_, ?_, hsub, hsum⟩
  · simpa using hlen
  · intro hin
    rw [Bool.not_eq_eq_eq_not, Bool.not_true] at hstop
    rw [← List.elem_iff] at hin
    rw [List.contains] at hstop
    rw [hin] at hstop
    cases hstop
  · unfold rawTokens at hmem
    rw [List.mem_map] at hmem
    obtain ⟨l, hl, hlt⟩ := hmem
    have := runsAux_wordChars (text.toList.map Char.toLower) [] (by simp) l hl
    intro c hc
    refine this.2 c ?_
    rw [← hlt] at hc
    exact hc

def tokenizeSample : String := "Hello, the WORLD'S a stage"

theorem c6_witness :
    2 ≤ String.length "hello" ∧
    "hello" ∉ STOPWORDS ∧
    (∀ c ∈ "hello".toList, isWordChar c = true) ∧
    List.Sublist (tokenize tokenizeSample) (rawTokens tokenizeSample) ∧
    ((rawTokens tokenizeSample).map String.length).sum =
      (tokenizeSample.toList.map Char.toLower).countP isWordChar :=
  c6_tokenize_contract tokenizeSample "hello" (by decide)

-- ### Claim C7 (confirmed)

/-- Claim C7: for a line that does not match the header shape —
(1) with no open record it is silently dropped (state and output unchanged),
(2) with an open record, a whitespace-only line is dropped and contributes
no blank line to the body, and
(3) with an open record, a non-blank line is appended to the open record's
message, stripped, separated by exactly one newline. -/
theorem c7_continuation_steps (line : List Char) (rest : List (List Char))
    (recs : List Record) (cur : Record)
    (hnh : parseHeaderLine (rstripNl line) = none) :
    parseLoop (line :: rest) none recs = parseLoop rest none recs ∧
    (stripChars (rstripNl line) = [] →
      parseLoop (line :: rest) (some cur) recs = parseLoop rest (some cur) recs) ∧
    (stripChars (rstripNl line) ≠ [] →
      parseLoop (line :: rest) (some cur) recs =
        parseLoop rest
          (some { cur with
                  message := cur.message ++
                    String.mk (newlineChar :: stripChars (rstripNl line)) }) recs) := by
  refine ⟨?_, ?_, ?_⟩
  · simp only [parseLoop, hnh]
    simp
  · intro hs
    simp only [parseLoop, hnh]
    simp [hs]
  · intro hs
    simp only [parseLoop, hnh]
    simp [hs]

def contLine : List Char := "  hi there  ".toList

theorem c7_witness :
    parseLoop [contLine] none [] = parseLoop [] none [] ∧
    parseLoop [contLine] (some aliceRec) [] =
      parseLoop []
        (some { aliceRec with
                message := aliceRec.message ++
                  String.mk (newlineChar :: stripChars (rstripNl contLine)) }) [] := by
  have h := c7_continuation_steps contLine [] [] aliceRec (by decide)
  exact ⟨h.1, h.2.2 (by decide)⟩

-- ### First-optimum characterisations of Python min/max and most_common

/-- Python's `max(..., key=f)` returns the first element attaining the
maximum: the list splits as `pre ++ best :: post` with everything `≤ best`
and everything before it strictly smaller. -/
lemma pyBest_max_spec {α : Type} (f : α → Nat) :
    ∀ (xs : List α) (x : α),
      ∃ pre post,
        x :: xs = pre ++ pyBest (fun b a => f a < f b) x xs :: post ∧
        (∀ y ∈ x :: xs, f y ≤ f (pyBest (fun b a => f a < f b) x xs)) ∧
        ∀ y ∈ pre, f y < f (pyBest (fun b a => f a < f b) x xs) := by
  intro xs
  induction xs with
  | nil =>
    intro x
    exact ⟨[], [], rfl, by simp [pyBest], by simp⟩
  | cons b bs ih =>
    intro x
    by_cases hb : f x < f b
    · have hstep : pyBest (fun b a => f a < f b) x (b :: bs) =
          pyBest (fun b a => f a < f b) b bs := by
        simp [pyBest, hb]
      rw [hstep]
      obtain ⟨pre, post, hdec, hall, hpre⟩ := ih b
      refine ⟨x :: pre, post, by rw [List.cons_append, ← hdec], ?_, ?_⟩
      · intro z hz
        rcases List.mem_cons.mp hz with hz | hz
        · subst hz
          exact le_of_lt (lt_of_lt_of_le hb (hall b (by simp)))
        · exact hall z hz
      · intro z hz
        rcases List.mem_cons.mp hz with hz | hz
        · subst hz
          exact lt_of_lt_of_le hb (hall b (by simp))
        · exact hpre z hz
    · have hstep : pyBest (fun b a => f a < f b) x (b :: bs) =
          pyBest (fun b a => f a < f b) x bs := by
        simp [pyBest, hb]
      rw [hstep]
      obtain ⟨pre, post, hdec, hall, hpre⟩ := ih x
      cases pre with
      | nil =>
        simp only [List.nil_append] at hdec
        obtain ⟨h1, h2⟩ := List.cons_eq_cons.mp hdec
        refine ⟨[], b :: bs, by rw [← h1]; simp, ?_, by simp⟩
        intro z hz
        rw [← h1]
        rcases List.mem_cons.mp hz with hz | hz
        · subst hz
          exact le_refl _
        rcases List.mem_cons.mp hz with hz | hz
        · subst hz
          omega
        · have hz2 := hall z (List.mem_cons_of_mem x hz)
          rw [← h1] at hz2
          exact hz2
      | cons p pre2 =>
        rw [List.cons_append] at hdec
        obtain ⟨h1, h2⟩ := List.cons_eq_cons.mp hdec
        have hxlt : f x < f (pyBest (fun b a => f a < f b) x bs) := by
          have hp := hpre p (by simp)
          rwa [← h1] at hp
        refine ⟨x :: b :: pre2, post,
          by simpa using congrArg (fun l => x :: b :: l) h2, ?_, ?_⟩
        · intro z hz
          rcases List.mem_cons.mp hz with hz | hz
          · rw [hz]
            exact hall x (by simp)
          rcases List.mem_cons.mp hz with hz | hz
          · subst hz
            omega
          · exact hall z (List.mem_cons_of_mem x hz)
        · intro z hz
          rcases List.mem_cons.mp hz with hz | hz
          · rw [hz]
            exact hxlt
          rcases List.mem_cons.mp hz with hz | hz
          · subst hz
            omega
          · exact hpre z (by simp [hz])

/-- Python's `min(..., key=f)` returns the first element attaining the
minimum. -/
lemma pyBest_min_spec {α : Type} (f : α → Nat) :
    ∀ (xs : List α) (x : α),
      ∃ pre post,
        x :: xs = pre ++ pyBest (fun b a => f b < f a) x xs :: post ∧
        (∀ y ∈ x :: xs, f (pyBest (fun b a => f b < f a) x xs) ≤ f y) ∧
        ∀ y ∈ pre, f (pyBest (fun b a => f b < f a) x xs) < f y := by
  intro xs
  induction xs with
  | nil =>
    intro x
    exact ⟨[], [], rfl, by simp [pyBest], by simp⟩
  | cons b bs ih =>
    intro x
    by_cases hb : f b < f x
    · have hstep : pyBest (fun b a => f b < f a) x (b :: bs) =
          pyBest (fun b a => f b < f a) b bs := by
        simp [pyBest, hb]
      rw [hstep]
      obtain ⟨pre, post, hdec, hall, hpre⟩ := ih b
      refine ⟨x :: pre, post, by rw [List.cons_append, ← hdec], ?_, ?_⟩
      · intro z hz
        rcases List.mem_cons.mp hz with hz | hz
        · subst hz
          exact le_of_lt (lt_of_le_of_lt (hall b (by simp)) hb)
        · exact hall z hz
      · intro z hz
        rcases List.mem_cons.mp hz with hz | hz
        · subst hz
          exact lt_of_le_of_lt (hall b (by simp)) hb
        · exact hpre z hz
    · have hstep : pyBest (fun b a => f b < f a) x (b :: bs) =
          pyBest (fun b a => f b < f a) x bs := by
        simp [pyBest, hb]
      rw [hstep]
      obtain ⟨pre, post, hdec, hall, hpre⟩ := ih x
      cases pre with
      | nil =>
        simp only [List.nil_append] at hdec
        obtain ⟨h1, h2⟩ := List.cons_eq_cons.mp hdec
        refine ⟨[], b :: bs, by rw [← h1]; simp, ?_, by simp⟩
        intro z hz
        rw [← h1]
        rcases List.mem_cons.mp hz with hz | hz
        · subst hz
          exact le_refl _
        rcases List.mem_cons.mp hz with hz | hz
        · subst hz
          omega
        · have hz2 := hall z (List.mem_cons_of_mem x hz)
          rw [← h1] at hz2
          exact hz2
      | cons p pre2 =>
        rw [List.cons_append] at hdec
        obtain ⟨h1, h2⟩ := List.cons_eq_cons.mp hdec
        have hxlt : f (pyBest (fun b a => f b < f a) x bs) < f x := by
          have hp := hpre p (by simp)
          rwa [← h1] at hp
        refine ⟨x :: b :: pre2, post,
          by simpa using congrArg (fun l => x :: b :: l) h2, ?_, ?_⟩
        · intro z hz
          rcases List.mem_cons.mp hz with hz | hz
          · rw [hz]
            exact hall x (by simp)
          rcases List.mem_cons.mp hz with hz | hz
          · subst hz
            omega
          · exact hall z (List.mem_cons_of_mem x hz)
        · intro z hz
          rcases List.mem_cons.mp hz with hz | hz
          · rw [hz]
            exact hxlt
          rcases List.mem_cons.mp hz with hz | hz
          · subst hz
            omega
          · exact hpre z (by simp [hz])

lemma mem_insertDesc {K : Type} (x y : K × Nat) :
    ∀ (s : List (K × Nat)), y ∈ insertDesc x s ↔ y = x ∨ y ∈ s := by
  intro s
  induction s with
  | nil => simp [insertDesc]
  | cons z zs ih =>
    unfold insertDesc
    split
    · rw [List.mem_cons, ih, List.mem_cons]
      tauto
    · rw [List.mem_cons, List.mem_cons]

lemma length_insertDesc {K : Type} (x : K × Nat) :
    ∀ (s : List (K × Nat)), (insertDesc x s).length = s.length + 1 := by
  intro s
  induction s with
  | nil => rfl
  | cons z zs ih =>
    unfold insertDesc
    split
    · simp [ih]
    · simp

lemma sortCountDesc_ne_nil {K : Type} (l : List (K × Nat)) (h : l ≠ []) :
    sortCountDesc l ≠ [] := by
  cases l with
  | nil => exact absurd rfl h
  | cons x t =>
    show insertDesc x (sortCountDesc t) ≠ []
    cases hs : sortCountDesc t with
    | nil => simp [insertDesc]
    | cons z zs =>
      unfold insertDesc
      split <;> simp

lemma pairwise_insertDesc {K : Type} (x : K × Nat) :
    ∀ (s : List (K × Nat)), s.Pairwise (fun a b => b.2 ≤ a.2) →
      (insertDesc x s).Pairwise (fun a b => b.2 ≤ a.2) := by
  intro s
  induction s with
  | nil => intro _; simp [insertDesc]
  | cons z zs ih =>
    intro h
    rcases List.pairwise_cons.mp h with ⟨hz, htail⟩
    unfold insertDesc
    split
    · rename_i hlt
      rw [List.pairwise_cons]
      refine ⟨?_, ih htail⟩
      intro a ha
      rcases (mem_insertDesc x a zs).mp ha with ha | ha
      · rw [ha]; omega
      · exact hz a ha
    · rename_i hlt
      rw [List.pairwise_cons]
      refine ⟨?_, h⟩
      intro a ha
      rcases List.mem_cons.mp ha with ha | ha
      · rw [ha]; omega
      · have := hz a ha
        omega

/-- `most_common` output is in descending count order. -/
lemma pairwise_sortCountDesc {K : Type} (l : List (K × Nat)) :
    (sortCountDesc l).Pairwise (fun a b => b.2 ≤ a.2) := by
  induction l with
  | nil => simp [sortCountDesc]
  | cons x t ih => exact pairwise_insertDesc x (sortCountDesc t) ih

/-- The head of `most_common` is the first entry attaining the maximal
count: the table splits as `pre ++ b :: post` with every count `≤ b.2` and
every count before `b` strictly smaller. -/
lemma sortCountDesc_head_spec {K : Type} :
    ∀ (m : List (K × Nat)), m ≠ [] →
      ∃ b pre post, (sortCountDesc m).head? = some b ∧ m = pre ++ b :: post ∧
        (∀ y ∈ m, y.2 ≤ b.2) ∧ ∀ y ∈ pre, y.2 < b.2 := by
  intro m
  induction m with
  | nil => intro h; exact absurd rfl h
  | cons x t ih =>
    intro _
    cases t with
    | nil =>
      exact ⟨x, [], [], rfl, rfl, by simp, by simp⟩
    | cons z zs =>
      obtain ⟨b, pre, post, hhead, hdec, hall, hpre⟩ := ih (by simp)
      cases hs : sortCountDesc (z :: zs) with
      | nil => exact absurd hs (sortCountDesc_ne_nil _ (by simp))
      | cons hb tl =>
        rw [hs] at hhead
        have hhb : hb = b := by
          simpa using hhead
        subst hhb
        have hstep : sortCountDesc (x :: z :: zs) = insertDesc x (hb :: tl) := by
          show insertDesc x (sortCountDesc (z :: zs)) = _
          rw [hs]
        by_cases hxb : x.2 < hb.2
        · refine ⟨hb, x :: pre, post, ?_, ?_, ?_, ?_⟩
          · rw [hstep]
            unfold insertDesc
            simp [hxb]
          · rw [List.cons_append, ← hdec]
          · intro y hy
            rcases List.mem_cons.mp hy with hy | hy
            · rw [hy]; omega
            · exact hall y hy
          · intro y hy
            rcases List.mem_cons.mp hy with hy | hy
            · rw [hy]; omega
            · exact hpre y hy
        · refine ⟨x, [], z :: zs, ?_, rfl, ?_, by simp⟩
          · rw [hstep]
            unfold insertDesc
            simp [hxb]
          · intro y hy
            rcases List.mem_cons.mp hy with hy | hy
            · rw [hy]
            · have := hall y hy
              omega

-- ### The insertion-ordered counter: counts and first-occurrence order

/-- Number of occurrences of `k` in the key stream. -/
def countKey {K : Type} [DecidableEq K] (keys : List K) (k : K) : Nat :=
  keys.countP (fun a => decide (a = k))

/-- Index of the first occurrence of `k` (length if absent). -/
def posOf {K : Type} [DecidableEq K] : List K → K → Nat
  | [], _ => 0
  | a :: t, k => if a = k then 0 else posOf t k + 1

/-- The keys of a stream in first-occurrence order. -/
def firstOccs {K : Type} [DecidableEq K] : List K → List K
  | [] => []
  | k :: t => k :: firstOccs (t.filter (fun a => !decide (a = k)))
termination_by l => l.length
decreasing_by simpa using Nat.lt_succ_of_le (List.length_filter_le _ t)

lemma mem_firstOccs {K : Type} [DecidableEq K] :
    ∀ (keys : List K) (a : K), a ∈ firstOccs keys ↔ a ∈ keys := by
  intro keys
  induction keys using firstOccs.induct with
  | case1 => intro a; rw [firstOccs]
  | case2 k t ih =>
    intro a
    rw [firstOccs, List.mem_cons, List.mem_cons, ih a, List.mem_filter]
    by_cases hak : a = k
    · simp [hak]
    · simp [hak]

lemma nodup_firstOccs {K : Type} [DecidableEq K] :
    ∀ (keys : List K), (firstOccs keys).Nodup := by
  intro keys
  induction keys using firstOccs.induct with
  | case1 => rw [firstOccs]; exact List.nodup_nil
  | case2 k t ih =>
    rw [firstOccs, List.nodup_cons]
    refine ⟨?_, ih⟩
    intro hk
    have := (mem_firstOccs _ k).mp hk
    rw [List.mem_filter] at this
    simp at this

lemma firstOccs_append_singleton {K : Type} [DecidableEq K] :
    ∀ (ks : List K) (k : K),
      firstOccs (ks ++ [k]) =
        if k ∈ ks then firstOccs ks else firstOccs ks ++ [k] := by
  intro ks
  induction ks using firstOccs.induct with
  | case1 =>
    intro k
    rw [List.nil_append, firstOccs, firstOccs]
    simp [firstOccs]
  | case2 a t ih =>
    intro k
    rw [List.cons_append, firstOccs, List.filter_append]
    by_cases hka : k = a
    · have hfk : List.filter (fun b => !decide (b = a)) [k] = [] := by
        simp [List.filter, hka]
      rw [hfk, List.append_nil, firstOccs]
      simp [hka]
    · have hfk : List.filter (fun b => !decide (b = a)) [k] = [k] := by
        simp [List.filter, hka]
      rw [hfk, ih k]
      have hmem : k ∈ List.filter (fun b => !decide (b = a)) t ↔ k ∈ t := by
        simp [List.mem_filter, hka]
      by_cases hkt : k ∈ t
      · rw [if_pos (hmem.mpr hkt), if_pos (by simp [hkt]), firstOccs]
      · rw [if_neg (fun hc => hkt (hmem.mp hc)),
           if_neg (by simp [hkt, hka]), firstOccs, List.cons_append]

lemma counterOf_append_singleton {K : Type} [DecidableEq K]
    (ks : List K) (k : K) :
    counterOf (ks ++ [k]) = bump (counterOf ks) k := by
  simp [counterOf, List.foldl_append]

lemma bump_not_mem {K : Type} [DecidableEq K] :
    ∀ (l : List (K × Nat)) (k : K), k ∉ l.map Prod.fst →
      bump l k = l ++ [(k, 1)] := by
  intro l
  induction l with
  | nil => intro k _; rfl
  | cons p t ih =>
    intro k hk
    rw [List.map_cons, List.mem_cons] at hk
    push_neg at hk
    unfold bump
    rw [if_neg (fun hc => hk.1 hc.symm), ih k hk.2, List.cons_append]

lemma bump_map {K : Type} [DecidableEq K] (g : K → Nat) :
    ∀ (fo : List K) (k : K), k ∈ fo → fo.Nodup →
      bump (fo.map (fun a => (a, g a))) k =
        fo.map (fun a => (a, if a = k then g a + 1 else g a)) := by
  intro fo
  induction fo with
  | nil => intro k hk _; cases hk
  | cons a t ih =>
    intro k hk hnd
    rcases List.nodup_cons.mp hnd with ⟨hna, hndt⟩
    rw [List.map_cons, List.map_cons]
    by_cases hak : a = k
    · unfold bump
      rw [if_pos hak, if_pos hak]
      congr 1
      apply List.map_congr_left
      intro b hb
      have hbk : ¬(b = k) := by
        intro hc
        rw [hc, ← hak] at hb
        exact hna hb
      rw [if_neg hbk]
    · unfold bump
      rw [if_neg hak, if_neg hak]
      have hkt : k ∈ t := by
        rcases List.mem_cons.mp hk with h | h
        · exact absurd h.symm hak
        · exact h
      rw [ih k hkt hndt]

lemma countKey_append_singleton {K : Type} [DecidableEq K]
    (ks : List K) (k a : K) :
    countKey (ks ++ [k]) a = countKey ks a + (if k = a then 1 else 0) := by
  simp [countKey, List.countP_append, List.countP_cons]

/-- The counter of a key stream is exactly: the keys in first-occurrence
order, each paired with its number of occurrences. -/
lemma counter_eq {K : Type} [DecidableEq K] (keys : List K) :
    counterOf keys = (firstOccs keys).map (fun a => (a, countKey keys a)) := by
  induction keys using List.reverseRecOn with
  | nil => simp [counterOf, firstOccs]
  | append_singleton ks k ih =>
    rw [counterOf_append_singleton, ih, firstOccs_append_singleton]
    by_cases hk : k ∈ ks
    · rw [if_pos hk,
         bump_map (countKey ks) (firstOccs ks) k ((mem_firstOccs ks k).mpr hk)
           (nodup_firstOccs ks)]
      apply List.map_congr_left
      intro a _
      rw [countKey_append_singleton]
      by_cases hak : a = k
      · rw [if_pos hak, if_pos (hak ▸ rfl)]
      · rw [if_neg hak, if_neg (fun hc => hak hc.symm), Nat.add_zero]
    · rw [if_neg hk]
      have hnm : k ∉ ((firstOccs ks).map (fun a => (a, countKey ks a))).map Prod.fst := by
        rw [List.map_map]
        intro hc
        rw [List.mem_map] at hc
        obtain ⟨a, ha, hak⟩ := hc
        have : a = k := hak
        rw [this] at ha
        exact hk ((mem_firstOccs ks k).mp ha)
      rw [bump_not_mem _ k hnm, List.map_append]
      congr 1
      · apply List.map_congr_left
        intro a ha
        rw [countKey_append_singleton]
        have hak : ¬(k = a) := by
          intro hc
          rw [hc] at hk
          exact hk ((mem_firstOccs ks a).mp ha)
        rw [if_neg hak, Nat.add_zero]
      · have hz : countKey ks k = 0 := by
          rw [countKey, List.countP_eq_zero]
          intro a ha
          simp only [decide_eq_true_eq]
          intro hc
          rw [hc] at ha
          exact hk ha
        simp [countKey_append_singleton, hz]

lemma posOf_filter_lt {K : Type} [DecidableEq K] (p : K → Bool) :
    ∀ (t : List K) (a b : K), a ∈ t.filter p → b ∈ t.filter p →
      posOf (t.filter p) a < posOf (t.filter p) b → posOf t a < posOf t b := by
  intro t
  induction t with
  | nil => intro a b ha _ _; simp at ha
  | cons x t ih =>
    intro a b ha hb hab
    by_cases px : p x
    · rw [List.filter_cons_of_pos px] at ha hb hab
      by_cases hax : x = a
      · by_cases hbx : x = b
        · rw [posOf, posOf, if_pos hax, if_pos hbx] at hab
          omega
        · rw [posOf, posOf, if_pos hax, if_neg hbx]
          omega
      · by_cases hbx : x = b
        · rw [posOf, posOf, if_neg hax, if_pos hbx] at hab
          omega
        · rw [posOf, posOf, if_neg hax, if_neg hbx] at hab ⊢
          have ha2 : a ∈ t.filter p := by
            rcases List.mem_cons.mp ha with h | h
            · exact absurd h.symm hax
            · exact h
          have hb2 : b ∈ t.filter p := by
            rcases List.mem_cons.mp hb with h | h
            · exact absurd h.symm hbx
            · exact h
          have := ih a b ha2 hb2 (by omega)
          omega
    · rw [List.filter_cons_of_neg px] at ha hb hab
      have hax : ¬(x = a) := by
        intro hc
        have := List.of_mem_filter ha
        rw [← hc] at this
        exact px this
      have hbx : ¬(x = b) := by
        intro hc
        have := List.of_mem_filter hb
        rw [← hc] at this
        exact px this
      rw [posOf, posOf, if_neg hax, if_neg hbx]
      have := ih a b ha hb hab
      omega

/-- The counter's key order is the order of first occurrence in the stream. -/
lemma pairwise_posOf_firstOccs {K : Type} [DecidableEq K] :
    ∀ (keys : List K),
      (firstOccs keys).Pairwise (fun a b => posOf keys a < posOf keys b) := by
  intro keys
  induction keys using firstOccs.induct with
  | case1 => rw [firstOccs]; exact List.Pairwise.nil
  | case2 k t ih =>
    rw [firstOccs, List.pairwise_cons]
    constructor
    · intro b hb
      have hbf := (mem_firstOccs _ b).mp hb
      have hbk : ¬(k = b) := by
        intro hc
        rw [List.mem_filter] at hbf
        rw [← hc] at hbf
        simp at hbf
      rw [posOf, posOf, if_pos rfl, if_neg hbk]
      omega
    · refine List.Pairwise.imp_of_mem ?_ ih
      intro a b ha hb hab
      have haf := (mem_firstOccs _ a).mp ha
      have hbf := (mem_firstOccs _ b).mp hb
      have hak : ¬(k = a) := by
        intro hc
        rw [List.mem_filter] at haf
        rw [← hc] at haf
        simp at haf
      have hbk : ¬(k = b) := by
        intro hc
        rw [List.mem_filter] at hbf
        rw [← hc] at hbf
        simp at hbf
      have := posOf_filter_lt _ t a b haf hbf hab
      rw [posOf, posOf, if_neg hak, if_neg hbk]
      omega

lemma counter_pairwise {K : Type} [DecidableEq K] (keys : List K) :
    (counterOf keys).Pairwise (fun p q => posOf keys p.1 < posOf keys q.1) := by
  rw [counter_eq, List.pairwise_map]
  exact pairwise_posOf_firstOccs keys

lemma mem_counterOf {K : Type} [DecidableEq K] (keys : List K) (p : K × Nat) :
    p ∈ counterOf keys ↔ p.1 ∈ keys ∧ p.2 = countKey keys p.1 := by
  rw [counter_eq, List.mem_map]
  constructor
  · rintro ⟨a, ha, rfl⟩
    exact ⟨(mem_firstOccs _ _).mp ha, rfl⟩
  · rintro ⟨h1, h2⟩
    refine ⟨p.1, (mem_firstOccs _ _).mpr h1, ?_⟩
    rw [← h2]

/-- `k` is the first-encountered key attaining the maximal frequency `c`. -/
def IsFirstMax {K : Type} [DecidableEq K] (keys : List K) (k : K) (c : Nat) : Prop :=
  k ∈ keys ∧ c = countKey keys k ∧
  (∀ a ∈ keys, countKey keys a ≤ c) ∧
  ∀ a ∈ keys, countKey keys a = c → posOf keys k ≤ posOf keys a

/-- `k` is the first-encountered key attaining the minimal frequency `c`. -/
def IsFirstMin {K : Type} [DecidableEq K] (keys : List K) (k : K) (c : Nat) : Prop :=
  k ∈ keys ∧ c = countKey keys k ∧
  (∀ a ∈ keys, c ≤ countKey keys a) ∧
  ∀ a ∈ keys, countKey keys a = c → posOf keys k ≤ posOf keys a

lemma counterOf_ne_nil {K : Type} [DecidableEq K] (keys : List K) (hne : keys ≠ []) :
    counterOf keys ≠ [] := by
  rw [counter_eq]
  cases keys with
  | nil => exact absurd rfl hne
  | cons k t => rw [firstOccs]; simp

/-- `most_common(1)[0]` is the first-encountered key of maximal count. -/
lemma counter_head_isFirstMax {K : Type} [DecidableEq K]
    (keys : List K) (hne : keys ≠ []) :
    ∃ p : K × Nat, (sortCountDesc (counterOf keys)).head? = some p ∧
      IsFirstMax keys p.1 p.2 := by
  obtain ⟨b, pre, post, hhead, hdec, hall, hpre⟩ :=
    sortCountDesc_head_spec (counterOf keys) (counterOf_ne_nil keys hne)
  have hbmem : b ∈ counterOf keys := by rw [hdec]; simp
  rw [mem_counterOf] at hbmem
  obtain ⟨hb1, hb2⟩ := hbmem
  refine ⟨b, hhead, hb1, hb2, ?_, ?_⟩
  · intro a ha
    exact hall (a, countKey keys a) ((mem_counterOf _ _).mpr ⟨ha, rfl⟩)
  · intro a ha hac
    have hamem : (a, countKey keys a) ∈ counterOf keys :=
      (mem_counterOf _ _).mpr ⟨ha, rfl⟩
    rw [hdec] at hamem
    rcases List.mem_append.mp hamem with hin | hin
    · have := hpre _ hin
      simp only at this
      omega
    · rcases List.mem_cons.mp hin with hin | hin
      · have : a = b.1 := congrArg Prod.fst hin
        rw [this]
      · have hpw := counter_pairwise keys
        rw [hdec] at hpw
        rcases List.pairwise_append.mp hpw with ⟨-, hp2, -⟩
        rcases List.pairwise_cons.mp hp2 with ⟨hb_post, -⟩
        have := hb_post _ hin
        simp only at this
        omega

/-- `min(counter.items(), key=count)` is the first-inserted key of minimal
count. -/
lemma counter_min_isFirstMin {K : Type} [DecidableEq K]
    (keys : List K) (hne : keys ≠ []) :
    ∃ p : K × Nat, pyMinPair (counterOf keys) = some p ∧
      IsFirstMin keys p.1 p.2 := by
  cases hc : counterOf keys with
  | nil => exact absurd hc (counterOf_ne_nil keys hne)
  | cons x xs =>
    obtain ⟨pre, post, hdec, hall, hpre⟩ :=
      pyBest_min_spec (fun q : K × Nat => q.2) xs x
    set b := pyBest (fun b a => b.2 < a.2) x xs with hbdef
    have hpm : pyMinPair (x :: xs) = some b := by rw [hbdef]; rfl
    have hdec2 : counterOf keys = pre ++ b :: post := by rw [hc]; exact hdec
    have hbmem : b ∈ counterOf keys := by rw [hdec2]; simp
    rw [mem_counterOf] at hbmem
    obtain ⟨hb1, hb2⟩ := hbmem
    refine ⟨b, hpm, hb1, hb2, ?_, ?_⟩
    · intro a ha
      have := hall (a, countKey keys a)
        (by rw [← hc]; exact (mem_counterOf _ _).mpr ⟨ha, rfl⟩)
      exact this
    · intro a ha hac
      have hamem : (a, countKey keys a) ∈ counterOf keys :=
        (mem_counterOf _ _).mpr ⟨ha, rfl⟩
      rw [hdec2] at hamem
      rcases List.mem_append.mp hamem with hin | hin
      · have := hpre _ hin
        simp only at this
        omega
      · rcases List.mem_cons.mp hin with hin | hin
        · have : a = b.1 := congrArg Prod.fst hin
          rw [this]
        · have hpw := counter_pairwise keys
          rw [hdec2] at hpw
          rcases List.pairwise_append.mp hpw with ⟨-, hp2, -⟩
          rcases List.pairwise_cons.mp hp2 with ⟨hb_post, -⟩
          have := hb_post _ hin
          simp only at this
          omega

-- ### Claim C8 (confirmed)

lemma toList_mk (l : List Char) : (String.mk l).toList = l := rfl

lemma length_mk (l : List Char) : (String.mk l).length = l.length := rfl

/-- Claim C8: when the non-media user-message list is nonempty, the
reported longest message is the first-encountered message of maximal body
length (everything is `≤` it, everything before it is strictly shorter),
reported with its sender, ISO-formatted timestamp, character length, and a
preview equal to the body with newlines replaced by spaces and truncated
to at most 200 characters (the preview contains no newline). -/
theorem c8_longest_message (records : List Record) (resp : WrappedResponse)
    (h : compute_stats records = Except.ok resp)
    (hne : userNonMediaOf records ≠ []) :
    ∃ lr pre post,
      resp.longest_message = some ⟨lr.sender, isoFormat lr.timestamp,
        lr.message.length, previewOf lr.message⟩ ∧
      userNonMediaOf records = pre ++ lr :: post ∧
      (∀ r ∈ userNonMediaOf records, r.message.length ≤ lr.message.length) ∧
      (∀ r ∈ pre, r.message.length < lr.message.length) ∧
      (previewOf lr.message).length ≤ 200 ∧
      ∀ c ∈ (previewOf lr.message).toList, c ≠ newlineChar := by
  obtain ⟨-, -, -, -, -, -, -, -, -, -, hlong, -, -⟩ :=
    compute_stats_ok_fields records resp h
  cases hu : userNonMediaOf records with
  | nil => exact absurd hu hne
  | cons x xs =>
    have hlo : longestOf records =
        some (mkLongestEntry
          (pyBest (fun b a => a.message.length < b.message.length) x xs)) := by
      unfold longestOf
      rw [hu]
    obtain ⟨pre, post, hdec, hall, hpre⟩ :=
      pyBest_max_spec (fun r : Record => r.message.length) xs x
    refine ⟨pyBest (fun b a => a.message.length < b.message.length) x xs,
      pre, post, ?_, ?_, ?_, hpre, ?_, ?_⟩
    · rw [hlong, hlo]
      rfl
    · exact hdec
    · intro r hr
      exact hall r hr
    · show (String.mk (((pyBest (fun b a => a.message.length < b.message.length)
        x xs).message.toList.map
          (fun c => if c = newlineChar then ' ' else c)).take 200)).length ≤ 200
      rw [length_mk]
      exact List.length_take_le _ _
    · intro c hc
      have hc1 : c ∈ ((pyBest (fun b a => a.message.length < b.message.length)
          x xs).message.toList.map
            (fun c => if c = newlineChar then ' ' else c)).take 200 := hc
      have hc2 : c ∈ (pyBest (fun b a => a.message.length < b.message.length)
          x xs).message.toList.map (fun c => if c = newlineChar then ' ' else c) :=
        List.mem_of_mem_take hc1
      rw [List.mem_map] at hc2
      obtain ⟨c0, -, hc0⟩ := hc2
      rw [← hc0]
      by_cases h0 : c0 = newlineChar
      · rw [if_pos h0]
        decide
      · rw [if_neg h0]
        exact h0

theorem c8_witness :
    ∃ lr pre post,
      respAlice.longest_message = some ⟨lr.sender, isoFormat lr.timestamp,
        lr.message.length, previewOf lr.message⟩ ∧
      userNonMediaOf [aliceRec] = pre ++ lr :: post ∧
      (∀ r ∈ userNonMediaOf [aliceRec], r.message.length ≤ lr.message.length) ∧
      (∀ r ∈ pre, r.message.length < lr.message.length) ∧
      (previewOf lr.message).length ≤ 200 ∧
      ∀ c ∈ (previewOf lr.message).toList, c ≠ newlineChar :=
  c8_longest_message [aliceRec] respAlice (by decide) (by decide)

-- ### Claim C9 (confirmed)

/-- Claim C9: every frequency-based maximum statistic is the
first-encountered key of maximal count (ties broken by first-encounter
order in the accumulation scan), the quietest sender is the
first-inserted key of minimal count, and `top_talkers` keeps at most 10
entries in descending count order (its head being the first maximal
sender). -/
theorem c9_tie_breaks (records : List Record) (resp : WrappedResponse)
    (h : compute_stats records = Except.ok resp) :
    resp.top_talkers.length ≤ 10 ∧
    resp.top_talkers.Pairwise (fun a b => b.count ≤ a.count) ∧
    (∃ t, resp.top_talkers.head? = some t ∧
      IsFirstMax (sendersOf records) t.sender t.count) ∧
    (∃ q, resp.quietest_sender = some q ∧
      IsFirstMin (sendersOf records) q.sender q.count) ∧
    (∃ p : Nat × Nat, resp.busiest_hour = ⟨some p.1, p.2⟩ ∧
      IsFirstMax (hoursOf records) p.1 p.2) ∧
    (∃ p : Nat × Nat,
      resp.busiest_day_of_week = ⟨some (DOW_NAMES.getD p.1 ""), p.2⟩ ∧
      IsFirstMax (dowsOf records) p.1 p.2) ∧
    (∃ p : (Nat × Nat) × Nat,
      resp.peak_month = ⟨some p.1.1, some p.1.2,
        some (monthLabelStr p.1.1 p.1.2), p.2⟩ ∧
      IsFirstMax (monthsOf records) p.1 p.2) ∧
    (wordScan records ≠ [] → ∃ w, resp.most_used_word = some w ∧
      IsFirstMax (wordScan records) w.word w.count) ∧
    (emojiScan records ≠ [] → ∃ e c, resp.most_used_emoji =
      some ⟨String.mk [e], c⟩ ∧ IsFirstMax (emojiScan records) e c) := by
  obtain ⟨hne, -, -, -, htt, hq, hbh, hbd, hbm, -, -, hw, he⟩ :=
    compute_stats_ok_fields records resp h
  have hsne : sendersOf records ≠ [] := by
    unfold sendersOf
    simp only [ne_eq, List.map_eq_nil_iff]
    exact hne
  refine ⟨?_, ?_, ?_, ?_, ?_, ?_, ?_, ?_, ?_⟩
  · rw [htt, List.length_map]
    exact List.length_take_le _ _
  · rw [htt, List.pairwise_map]
    exact List.Pairwise.sublist (List.take_sublist _ _)
      (pairwise_sortCountDesc (counterOf (sendersOf records)))
  · obtain ⟨p0, hhead, hfm⟩ := counter_head_isFirstMax (sendersOf records) hsne
    cases hs : sortCountDesc (counterOf (sendersOf records)) with
    | nil =>
      rw [hs] at hhead
      cases hhead
    | cons a tl =>
      rw [hs] at hhead
      have ha : a = p0 := by simpa using hhead
      refine ⟨⟨p0.1, p0.2⟩, ?_, hfm⟩
      rw [htt, hs, ha]
      rfl
  · obtain ⟨q0, hmin, hfield⟩ := hq
    obtain ⟨p0, hmin2, hfm⟩ := counter_min_isFirstMin (sendersOf records) hsne
    rw [hmin] at hmin2
    have hqp : q0 = p0 := by simpa using hmin2
    subst hqp
    exact ⟨⟨q0.1, q0.2⟩, hfield, hfm⟩
  · obtain ⟨p, hhead, hfield⟩ := hbh
    have hkne : hoursOf records ≠ [] := by
      unfold hoursOf
      simp only [ne_eq, List.map_eq_nil_iff]
      exact hne
    obtain ⟨p0, hhead2, hfm⟩ := counter_head_isFirstMax (hoursOf records) hkne
    rw [hhead] at hhead2
    have hpp : p = p0 := by simpa using hhead2
    subst hpp
    exact ⟨p, hfield, hfm⟩
  · obtain ⟨p, hhead, hfield⟩ := hbd
    have hkne : dowsOf records ≠ [] := by
      unfold dowsOf
      simp only [ne_eq, List.map_eq_nil_iff]
      exact hne
    obtain ⟨p0, hhead2, hfm⟩ := counter_head_isFirstMax (dowsOf records) hkne
    rw [hhead] at hhead2
    have hpp : p = p0 := by simpa using hhead2
    subst hpp
    exact ⟨p, hfield, hfm⟩
  · obtain ⟨p, hhead, hfield⟩ := hbm
    have hkne : monthsOf records ≠ [] := by
      unfold monthsOf
      simp only [ne_eq, List.map_eq_nil_iff]
      exact hne
    obtain ⟨p0, hhead2, hfm⟩ := counter_head_isFirstMax (monthsOf records) hkne
    rw [hhead] at hhead2
    have hpp : p = p0 := by simpa using hhead2
    subst hpp
    exact ⟨p, hfield, hfm⟩
  · intro hwne
    obtain ⟨p0, hhead, hfm⟩ := counter_head_isFirstMax (wordScan records) hwne
    refine ⟨⟨p0.1, p0.2⟩, ?_, hfm⟩
    rw [hw, hhead]
    rfl
  · intro hene
    obtain ⟨p0, hhead, hfm⟩ := counter_head_isFirstMax (emojiScan records) hene
    refine ⟨p0.1, p0.2, ?_, hfm⟩
    rw [he, hhead]
    rfl

theorem c9_witness :
    respAlice.top_talkers.length ≤ 10 ∧
    respAlice.top_talkers.Pairwise (fun a b => b.count ≤ a.count) ∧
    (∃ t, respAlice.top_talkers.head? = some t ∧
      IsFirstMax (sendersOf [aliceRec]) t.sender t.count) ∧
    (∃ q, respAlice.quietest_sender = some q ∧
      IsFirstMin (sendersOf [aliceRec]) q.sender q.count) ∧
    (∃ p : Nat × Nat, respAlice.busiest_hour = ⟨some p.1, p.2⟩ ∧
      IsFirstMax (hoursOf [aliceRec]) p.1 p.2) ∧
    (∃ p : Nat × Nat,
      respAlice.busiest_day_of_week = ⟨some (DOW_NAMES.getD p.1 ""), p.2⟩ ∧
      IsFirstMax (dowsOf [aliceRec]) p.1 p.2) ∧
    (∃ p : (Nat × Nat) × Nat,
      respAlice.peak_month = ⟨some p.1.1, some p.1.2,
        some (monthLabelStr p.1.1 p.1.2), p.2⟩ ∧
      IsFirstMax (monthsOf [aliceRec]) p.1 p.2) ∧
    (wordScan [aliceRec] ≠ [] → ∃ w, respAlice.most_used_word = some w ∧
      IsFirstMax (wordScan [aliceRec]) w.word w.count) ∧
    (emojiScan [aliceRec] ≠ [] → ∃ e c, respAlice.most_used_emoji =
      some ⟨String.mk [e], c⟩ ∧ IsFirstMax (emojiScan [aliceRec]) e c) :=
  c9_tie_breaks [aliceRec] respAlice (by decide)
